import Mathlib

/-!
Verification of the raster mosaic/stacking and categorical-pixel relabeling
pipeline of the ScienceCore climaterisk tutorial repository.

The development shallowly embeds the repository's kernel:

* `relabel_pixels` — translated from the notebook utility function
  (`src/unnamed/part_000`, also repeated in the Lake Mead case study).
  NumPy `uint8` arithmetic is modelled by `Nat` with explicit `% 256`
  where the code builds `uint8` arrays (`np.array(values, dtype=np.uint8)`
  and `np.arange(..., dtype=values.dtype)`).
* `search_to_dataframe` — translated from `src/unnamed/part_001`.
* the stacking loop feeding `xarray.concat` — translated from
  `src/unnamed/part_001`; `xarray.concat` itself is an external library
  call and is modelled from the specification.
* `merge` and `array_bounds` — `rasterio.merge.merge` and
  `rasterio.transform.array_bounds` are external library calls whose
  source is not part of the repository; they are modelled from the
  specification's Mosaic Merger algorithm (spec section 4.2).

Pixel grids are modelled as `List Nat` (flattened, the notebooks' arrays
are `uint8`) or `List (List Nat)` where the 2-D shape matters; exact
rational arithmetic (`ℚ`) stands in for the float computations of the
coordinate reconstruction, whose inputs are exact in the notebooks.
-/

namespace ClimateRisk

/-! ### Categorical Relabeler (`relabel_pixels`, from the source) -/

/-- Python `dict` insertion: an existing key keeps its position and gets the
new value, a fresh key is appended.  Used to model `dict(zip(values, new_values))`. -/
def dictInsert (d : List (Nat × Nat)) (k v : Nat) : List (Nat × Nat) :=
  if d.any (fun kv => kv.1 == k) then
    d.map (fun kv => if kv.1 == k then (k, v) else kv)
  else d ++ [(k, v)]

/-- Model of Python's `dict(zip(ks, vs))`, returned as an association list in
dict iteration (insertion) order. -/
def dictZip (ks vs : List Nat) : List (Nat × Nat) :=
  (List.zip ks vs).foldl (fun d kv => dictInsert d kv.1 kv.2) []

/-- Model of `np.sort(np.unique(...))` composed behaviour on a flattened pixel
list: the distinct values in ascending order. -/
def uniqueSorted (data : List Nat) : List Nat :=
  List.insertionSort (fun a b => a ≤ b) data.dedup

/-- The sorted category-code list used by `relabel_pixels`: the supplied
`values` cast to `uint8` and sorted (`np.sort(np.array(values, dtype=np.uint8))`)
when `values` is non-empty, otherwise the distinct values observed in the data
(`np.sort(np.unique(data.values.flatten()))`); when `replace_null` is set the
null value is removed (`values = values[np.where(values != null_val)]`). -/
def collapsedCodes (data values : List Nat) (null_val : Nat) (replace_null : Bool) :
    List Nat :=
  let vs0 :=
    if values = [] then uniqueSorted data
    else List.insertionSort (fun a b => a ≤ b) (values.map (fun v => v % 256))
  if replace_null then vs0.filter (fun v => v ≠ null_val) else vs0

/-- The new labels `np.arange(start=start, stop=start+n_values, dtype=values.dtype)`:
consecutive values from `start`, wrapped into `uint8` range. -/
def newValuesOf (data values : List Nat) (null_val : Nat) (replace_null : Bool)
    (start : Nat) : List Nat :=
  (List.range (collapsedCodes data values null_val replace_null).length).map
    (fun i => (start + i) % 256)

/-- The data after the `replace_null` rewrite
`new_data.where(new_data != null_val, other=transparent_val)`. -/
def nullReplaced (data : List Nat) (null_val transparent_val : Nat)
    (replace_null : Bool) : List Nat :=
  if replace_null then data.map (fun p => if p = null_val then transparent_val else p)
  else data

/-- The sequential rewrite loop of `relabel_pixels`:
`for old, new in relabel.items(): if new == old: continue;
new_data = new_data.where(new_data != old, other=new)`. -/
def applyRelabel (d : List Nat) (m : List (Nat × Nat)) : List Nat :=
  m.foldl
    (fun acc kv =>
      if kv.2 = kv.1 then acc
      else acc.map (fun p => if p = kv.1 then kv.2 else p))
    d

/-- Translation of the notebook utility `relabel_pixels(data, values, null_val,
transparent_val, replace_null, start)` (`src/unnamed/part_000`).  The failing
`assert transparent_val in new_values` is modelled by returning `none`; a
successful call returns the rewritten data together with the `relabel`
dictionary `dict(zip(values, new_values))`. -/
def relabel_pixels (data values : List Nat) (null_val transparent_val : Nat)
    (replace_null : Bool) (start : Nat) : Option (List Nat × List (Nat × Nat)) :=
  if transparent_val ∈ newValuesOf data values null_val replace_null start then
    let relabel := dictZip (collapsedCodes data values null_val replace_null)
      (newValuesOf data values null_val replace_null start)
    some (applyRelabel (nullReplaced data null_val transparent_val replace_null) relabel,
      relabel)
  else none

/-! ### Operations the claims state about the relabeler -/

/-- Simultaneous dictionary application: look a pixel up in an association
list, pass it through unchanged when absent. -/
def lookupD (m : List (Nat × Nat)) (p : Nat) : Nat :=
  match m.find? (fun kv => kv.1 == p) with
  | some kv => kv.2
  | none => p

/-- The inverse dictionary of a relabel map. -/
def invMap (m : List (Nat × Nat)) : List (Nat × Nat) :=
  m.map (fun kv => (kv.2, kv.1))

/-- Apply a dictionary simultaneously to every pixel of a flattened array. -/
def applyMapSim (m : List (Nat × Nat)) (d : List Nat) : List Nat :=
  d.map (lookupD m)

/-! ### Analysis helpers for the sequential rewrite loop -/

/-- Effect of one step of the rewrite loop on a single pixel. -/
def seqStep (q : Nat) (kv : Nat × Nat) : Nat :=
  if kv.2 = kv.1 then q else if q = kv.1 then kv.2 else q

/-- Effect of the whole sequential rewrite loop on a single pixel. -/
def seqApply (m : List (Nat × Nat)) (p : Nat) : Nat :=
  m.foldl seqStep p

/-- Pairing of a code list with consecutive new labels from `s`. -/
def zipConsec (s : Nat) : List Nat → List (Nat × Nat)
  | [] => []
  | v :: t => (v, s) :: zipConsec (s + 1) t

/-! ### Mosaic Merger

Modelled from the spec: the notebooks call `rasterio.merge.merge`, an external
library function whose source is not part of the repository; spec section 4.2
gives the Merger algorithm (union bounds, common resolution, per-frame offset
copy with last-write-wins).  Frames are grid-aligned at the common resolution,
so positions are kept in integer pixel units (`ox`, `oy` are the column/row of
the frame's upper-left corner on the shared grid); the resolution fields tie
those units to ground distance. -/

/-- A single-band raster tile: CRS identifier, positive per-axis resolution,
upper-left corner on the shared pixel grid, size, and pixel values indexed by
global grid column and row. -/
structure RasterFrame where
  crs : Nat
  rx : ℚ
  ry : ℚ
  ox : Int
  oy : Int
  width : Nat
  height : Nat
  pix : Int → Int → Int

/-- Whether global grid cell `(x, y)` lies inside the frame's extent. -/
def containsB (f : RasterFrame) (x y : Int) : Bool :=
  decide (f.ox ≤ x) && decide (x < f.ox + f.width) &&
    decide (f.oy ≤ y) && decide (y < f.oy + f.height)

/-- Modelled from the spec: the output of merging, one pixel grid with union
bounds and the common resolution; `pix` is `none` on cells no input covers. -/
structure Mosaic where
  crs : Nat
  rx : ℚ
  ry : ℚ
  ox : Int
  oy : Int
  width : Nat
  height : Nat
  pix : Int → Int → Option Int

/-- Modelled from the spec: the value the merged grid holds at a cell — each
frame in supplied order overwrites the cell it covers, so the last covering
frame wins. -/
def mergePix (frames : List RasterFrame) (x y : Int) : Option Int :=
  frames.foldl (fun acc f => if containsB f x y then some (f.pix x y) else acc) none

/-- Left edge of the union bounds. -/
def unionOx (f0 : RasterFrame) (rest : List RasterFrame) : Int :=
  rest.foldl (fun m f => min m f.ox) f0.ox

/-- Top edge of the union bounds. -/
def unionOy (f0 : RasterFrame) (rest : List RasterFrame) : Int :=
  rest.foldl (fun m f => min m f.oy) f0.oy

/-- Right edge of the union bounds. -/
def unionEx (f0 : RasterFrame) (rest : List RasterFrame) : Int :=
  rest.foldl (fun m f => max m (f.ox + f.width)) (f0.ox + f0.width)

/-- Bottom edge of the union bounds. -/
def unionEy (f0 : RasterFrame) (rest : List RasterFrame) : Int :=
  rest.foldl (fun m f => max m (f.oy + f.height)) (f0.oy + f0.height)

/-- Modelled from the spec: `merge(frames)` — fails on an empty sequence and on
a CRS or resolution mismatch, otherwise returns the union-bounds mosaic whose
overlaps resolve last-write-wins. -/
def merge (frames : List RasterFrame) : Option Mosaic :=
  match frames with
  | [] => none
  | f0 :: rest =>
    if rest.all (fun f => decide (f.crs = f0.crs) && decide (f.rx = f0.rx) &&
        decide (f.ry = f0.ry)) then
      some
        { crs := f0.crs, rx := f0.rx, ry := f0.ry
          ox := unionOx f0 rest, oy := unionOy f0 rest
          width := (unionEx f0 rest - unionOx f0 rest).toNat
          height := (unionEy f0 rest - unionOy f0 rest).toNat
          pix := fun x y => mergePix frames x y }
    else none

/-- An affine geo-transform in the shape the notebook reads off
`mosaic_transform`: `a` the pixel width, `c` the left edge, `e` the (negative)
pixel height, `f` the top edge. -/
structure Affine where
  a : ℚ
  c : ℚ
  e : ℚ
  f : ℚ

/-- Modelled from the spec: the output transform of the Merger — origin at the
union bounds' upper-left corner, per-axis resolution of the inputs (the shared
grid's world origin is taken as zero). -/
def mosaicTransform (m : Mosaic) : Affine :=
  { a := m.rx, c := m.rx * m.ox, e := -m.ry, f := -m.ry * m.oy }

/-- Modelled from the spec: `rasterio.transform.array_bounds(height, width,
transform)`, the `(x_min, y_min, x_max, y_max)` rectangle spanned by a grid of
the given shape under the given transform (external library call in the
Lake Mead notebook). -/
def array_bounds (height width : Nat) (t : Affine) : ℚ × ℚ × ℚ × ℚ :=
  (t.c, t.f + height * t.e, t.c + width * t.a, t.f)

/-- Number of samples `np.arange(start, stop, step)` produces:
`⌈(stop - start) / step⌉` when that ratio is positive, else zero. -/
def arangeLen (start stop step : ℚ) : Nat :=
  if 0 < (stop - start) / step then ⌈(stop - start) / step⌉.toNat else 0

/-! ### Temporal Stacker

The per-file loop appending tagged slices is translated from
`src/unnamed/part_001`; `xarray.concat` itself is an external library call and
is modelled from spec section 4.3 (tags preserve caller-supplied order). -/

/-- One slice of the stacking loop: the timestamp written into the `time`
coordinate and the 2-D pixel grid. -/
structure TaggedSlice where
  time : Nat
  data : List (List Nat)

/-- A stacked labeled array: the `time` coordinate values and the slices. -/
structure Stack where
  times : List Nat
  slices : List (List (List Nat))

/-- The accumulation loop of `src/unnamed/part_001`: start from an empty list
and append one tagged slice per DataFrame row, in row order. -/
def buildStack (rows : List (Nat × List (List Nat))) : List TaggedSlice :=
  rows.foldl (fun acc tr => acc ++ [⟨tr.1, tr.2⟩]) []

/-- Modelled from the spec: `xarray.concat(stack, dim='time')` on same-shape
slices concatenates along the new `time` axis, keeping list order. -/
def xr_concat (l : List TaggedSlice) : Stack :=
  ⟨l.map TaggedSlice.time, l.map TaggedSlice.data⟩

/-- Shape of a 2-D pixel grid: row count and the per-row lengths. -/
def matShape (m : List (List Nat)) : Nat × List Nat :=
  (m.length, m.map List.length)

/-! ### Search results to DataFrame (`search_to_dataframe`, from the source) -/

/-- One search-result granule as `search_to_dataframe` consumes it: an
identifier, a property dictionary, and named assets with their `href`s. -/
structure Granule where
  id : String
  properties : List (String × String)
  assets : List (String × String)

/-- Python `g.properties.get(k, None)`. -/
def lookupStr (props : List (String × String)) (k : String) : Option String :=
  (props.find? (fun kv => kv.1 == k)).map Prod.snd

/-- Split a character list at every occurrence of `sep`, keeping empty
fields, as Python's `str.split(sep)` does. -/
def splitFields (sep : Char) : List Char → List (List Char)
  | [] => [[]]
  | c :: rest =>
    if c = sep then [] :: splitFields sep rest
    else
      match splitFields sep rest with
      | [] => [[c]]
      | f :: fs => (c :: f) :: fs

/-- The tile identifier `granule.id.split('_')[3]`; `none` models the
`IndexError` when the identifier has fewer than four fields. -/
def tileId (g : Granule) : Option String :=
  ((splitFields (Char.ofNat 95) g.id.toList).map (fun cs => String.mk cs)).get? 3

/-- The union of the property keys over all granules,
`list({prop for g in granules for prop in g.properties.keys()})` (Python's set
iteration order is arbitrary; first-occurrence order stands in for it). -/
def propsOf (granules : List Granule) : List String :=
  (granules.map (fun g => g.properties.map Prod.fst)).flatten.dedup

/-- One DataFrame row: the property-column values, then `asset`, `href`,
`tile_id`. -/
structure DfRow where
  props : List (Option String)
  asset : String
  href : String
  tile : String
deriving DecidableEq

/-- The row generator of `search_to_dataframe`: for each granule (in order),
one row per asset; `none` models the `IndexError` raised while the generator
is consumed when a granule identifier cannot be split. -/
def rowsOf (props : List String) : List Granule → Option (List DfRow)
  | [] => some []
  | g :: gs =>
    match tileId g with
    | none => none
    | some t =>
      match rowsOf props gs with
      | none => none
      | some rest =>
        some ((g.assets.map (fun a =>
          ⟨props.map (lookupStr g.properties), a.1, a.2, t⟩)) ++ rest)

/-- Translation of `search_to_dataframe(search)` (`src/unnamed/part_001`): the
first `assert granules` fails on an empty search result; `pd.concat` over an
empty row generator raises, as does the final `assert len(df)` — both are
modelled by `none` on an empty row list. -/
def search_to_dataframe (granules : List Granule) : Option (List DfRow) :=
  if granules.isEmpty then none
  else
    match rowsOf (propsOf granules) granules with
    | none => none
    | some rows => if rows = [] then none else some rows

/-! ### Lemmas about the sequential rewrite loop -/

theorem applyRelabel_eq_map (m : List (Nat × Nat)) (d : List Nat) :
    applyRelabel d m = d.map (seqApply m) := by
  induction m generalizing d with
  | nil =>
    simp only [applyRelabel, List.foldl_nil]
    exact ((List.map_congr_left fun a _ => (rfl : seqApply [] a = a)).trans
      (List.map_id d)).symm
  | cons kv t ih =>
    have hstep : applyRelabel d (kv :: t) =
        applyRelabel (d.map (fun p => seqStep p kv)) t := by
      by_cases h : kv.2 = kv.1 <;>
        simp [applyRelabel, List.foldl_cons, h, seqStep]
    rw [hstep, ih, List.map_map]
    rfl

theorem seqApply_of_not_key (m : List (Nat × Nat)) (p : Nat)
    (h : ∀ kv ∈ m, p ≠ kv.1) : seqApply m p = p := by
  induction m with
  | nil => rfl
  | cons kv t ih =>
    have hp : p ≠ kv.1 := h kv (List.mem_cons_self _ _)
    have h1 : seqStep p kv = p := by
      by_cases h2 : kv.2 = kv.1 <;> simp [seqStep, h2, hp]
    show List.foldl seqStep p (kv :: t) = p
    rw [List.foldl_cons, h1]
    exact ih (fun kv2 hkv2 => h kv2 (List.mem_cons_of_mem _ hkv2))

theorem zipConsec_length (l : List Nat) (s : Nat) :
    (zipConsec s l).length = l.length := by
  induction l generalizing s with
  | nil => rfl
  | cons v t ih => simp [zipConsec, ih]

theorem zipConsec_map_fst (l : List Nat) (s : Nat) :
    (zipConsec s l).map Prod.fst = l := by
  induction l generalizing s with
  | nil => rfl
  | cons v t ih => simp [zipConsec, ih]

theorem zipConsec_map_snd (l : List Nat) (s : Nat) :
    (zipConsec s l).map Prod.snd = (List.range l.length).map (fun i => s + i) := by
  induction l generalizing s with
  | nil => rfl
  | cons v t ih =>
    simp only [zipConsec, List.map_cons, List.length_cons,
      List.range_succ_eq_map, List.map_map]
    refine congrArg₂ _ (by omega) ?_
    rw [ih (s + 1)]
    exact List.map_congr_left fun i _ => by simp [Function.comp]; omega

theorem mem_zipConsec {l : List Nat} {s : Nat} {kv : Nat × Nat}
    (h : kv ∈ zipConsec s l) : kv.1 ∈ l ∧ s ≤ kv.2 := by
  induction l generalizing s with
  | nil => simp [zipConsec] at h
  | cons v t ih =>
    rcases List.mem_cons.1 h with rfl | h'
    · simp
    · have := ih h'
      exact ⟨List.mem_cons_of_mem _ this.1, by omega⟩

theorem zip_range_eq_zipConsec (l : List Nat) (s : Nat) :
    List.zip l ((List.range l.length).map (fun i => s + i)) = zipConsec s l := by
  induction l generalizing s with
  | nil => rfl
  | cons v t ih =>
    simp only [List.length_cons, List.range_succ_eq_map, List.map_cons,
      List.map_map, List.zip_cons_cons, zipConsec]
    refine congrArg₂ _ (by simp) ?_
    rw [← ih (s + 1)]
    refine congrArg _ ?_
    exact List.map_congr_left fun i _ => by simp [Function.comp]; omega

/-! ### Lemmas about the dictionary model -/

theorem foldl_dictInsert_fresh (pairs : List (Nat × Nat)) :
    ∀ d : List (Nat × Nat), (∀ kv ∈ pairs, ∀ kv2 ∈ d, kv.1 ≠ kv2.1) →
      (pairs.map Prod.fst).Nodup →
      pairs.foldl (fun a kv => dictInsert a kv.1 kv.2) d = d ++ pairs := by
  induction pairs with
  | nil => intro d _ _; simp
  | cons kv t ih =>
    intro d hfresh hnd
    have hnotin : (d.any fun kv2 => kv2.1 == kv.1) = false := by
      simp only [List.any_eq_false]
      intro kv2 hkv2
      simpa using (hfresh kv (List.mem_cons_self _ _) kv2 hkv2).symm
    have h1 : dictInsert d kv.1 kv.2 = d ++ [(kv.1, kv.2)] := by
      simp [dictInsert, hnotin]
    rw [List.foldl_cons, h1, ih (d ++ [(kv.1, kv.2)]) ?_ ?_]
    · simp
    · intro kv3 hkv3 kv2 hkv2
      rcases List.mem_append.1 hkv2 with h2 | h2
      · exact hfresh kv3 (List.mem_cons_of_mem _ hkv3) kv2 h2
      · have h3 : kv2 = (kv.1, kv.2) := by simpa using h2
        subst h3
        have h4 : kv.1 ∉ t.map Prod.fst := (List.nodup_cons.1 (by simpa using hnd)).1
        intro hcontra
        apply h4
        rw [← hcontra]
        exact List.mem_map_of_mem Prod.fst hkv3
    · exact (List.nodup_cons.1 (by simpa using hnd)).2

theorem nodup_map_fst_zip (ks vs : List Nat) (h : ks.Nodup) :
    ((List.zip ks vs).map Prod.fst).Nodup := by
  induction ks generalizing vs with
  | nil => simp
  | cons a t ih =>
    cases vs with
    | nil => simp
    | cons b vs2 =>
      simp only [List.zip_cons_cons, List.map_cons]
      refine List.nodup_cons.2 ⟨?_, ih vs2 (List.nodup_cons.1 h).2⟩
      intro hmem
      obtain ⟨xy, hxy, hfst⟩ := List.mem_map.1 hmem
      have : xy.1 ∈ t := (List.of_mem_zip hxy).1
      exact (List.nodup_cons.1 h).1 (hfst ▸ this)

theorem dictZip_eq_zip (ks vs : List Nat) (h : ks.Nodup) :
    dictZip ks vs = List.zip ks vs := by
  have := foldl_dictInsert_fresh (List.zip ks vs) [] (by simp)
    (nodup_map_fst_zip ks vs h)
  simpa [dictZip] using this

theorem lookupD_cons_eq (k v : Nat) (m : List (Nat × Nat)) :
    lookupD ((k, v) :: m) k = v := by
  simp [lookupD, List.find?_cons_of_pos]

theorem lookupD_cons_ne (k v p : Nat) (m : List (Nat × Nat)) (h : k ≠ p) :
    lookupD ((k, v) :: m) p = lookupD m p := by
  simp [lookupD, List.find?_cons_of_neg, h]

/-! ### Order lemmas for the code lists -/

theorem pairwise_lt_of_sorted_nodup {l : List Nat}
    (hs : l.Pairwise (· ≤ ·)) (hn : l.Nodup) : l.Pairwise (· < ·) :=
  (hs.and hn).imp fun h => lt_of_le_of_ne h.1 h.2

theorem ge_add_idx_of_pairwise {l : List Nat} {s : Nat}
    (hp : l.Pairwise (· < ·)) (hs : ∀ v ∈ l, s ≤ v) :
    ∀ i v, l.get? i = some v → s + i ≤ v := by
  induction l generalizing s with
  | nil => intro i v h; simp at h
  | cons a t ih =>
    intro i v h
    cases i with
    | zero =>
      have h0 : a = v := by simpa using h
      have := hs a (List.mem_cons_self _ _)
      omega
    | succ i =>
      have h' : t.get? i = some v := by simpa using h
      have ha := hs a (List.mem_cons_self _ _)
      have hs' : ∀ x ∈ t, s + 1 ≤ x := fun x hx => by
        have := (List.pairwise_cons.1 hp).1 x hx
        omega
      have := ih hp.of_cons hs' i v h'
      omega

/-! ### The sequential loop agrees with the map and is invertible -/

theorem seq_mem_roundtrip (l : List Nat) :
    ∀ (s p : Nat), l.Pairwise (· < ·) → (∀ v ∈ l, s ≤ v) → p ∈ l →
      s ≤ seqApply (zipConsec s l) p ∧
        lookupD (invMap (zipConsec s l)) (seqApply (zipConsec s l) p) = p := by
  induction l with
  | nil => intro s p _ _ hmem; simp at hmem
  | cons v t ih =>
    intro s p hp hs hmem
    have hsv : s ≤ v := hs v (List.mem_cons_self _ _)
    have hvt : ∀ x ∈ t, v < x := (List.pairwise_cons.1 hp).1
    have hinv : invMap (zipConsec s (v :: t)) =
        (s, v) :: invMap (zipConsec (s + 1) t) := by
      simp [zipConsec, invMap]
    rcases List.mem_cons.1 hmem with rfl | hmem'
    · have hq : seqStep p (p, s) = s := by
        by_cases h : s = p <;> simp [seqStep, h]
      have hrest : seqApply (zipConsec (s + 1) t) s = s := by
        apply seqApply_of_not_key
        intro kv hkv
        have h1 := mem_zipConsec hkv
        have h2 := hvt kv.1 h1.1
        omega
      have hv1 : seqApply (zipConsec s (p :: t)) p = s := by
        show List.foldl seqStep p ((p, s) :: zipConsec (s + 1) t) = s
        rw [List.foldl_cons]
        show List.foldl seqStep (seqStep p (p, s)) (zipConsec (s + 1) t) = s
        rw [hq]
        exact hrest
      refine ⟨by rw [hv1], ?_⟩
      rw [hv1, hinv, lookupD_cons_eq]
    · have hvp : v < p := hvt p hmem'
      have hq : seqStep p (v, s) = p := by
        have hpv : p ≠ v := by omega
        by_cases h : s = v <;> simp [seqStep, h, hpv]
      have hs' : ∀ x ∈ t, s + 1 ≤ x := fun x hx => by
        have := hvt x hx; omega
      obtain ⟨hge, hlook⟩ := ih (s + 1) p hp.of_cons hs' hmem'
      have hv1 : seqApply (zipConsec s (v :: t)) p =
          seqApply (zipConsec (s + 1) t) p := by
        show List.foldl seqStep p ((v, s) :: zipConsec (s + 1) t) = _
        rw [List.foldl_cons]
        show List.foldl seqStep (seqStep p (v, s)) (zipConsec (s + 1) t) = _
        rw [hq]
        rfl
      refine ⟨by rw [hv1]; omega, ?_⟩
      rw [hv1, hinv, lookupD_cons_ne _ _ _ _ (by omega)]
      exact hlook

/-! ### Monotonicity structure of the relabel map -/

theorem zipConsec_pairwise (l : List Nat) :
    ∀ s : Nat, l.Pairwise (· < ·) →
      (zipConsec s l).Pairwise (fun x y => x.1 < y.1 ∧ x.2 < y.2) := by
  induction l with
  | nil => intro s _; simp [zipConsec]
  | cons v t ih =>
    intro s hp
    rw [zipConsec]
    refine List.pairwise_cons.2 ⟨?_, ih (s + 1) hp.of_cons⟩
    intro kv hkv
    have h1 := mem_zipConsec hkv
    exact ⟨(List.pairwise_cons.1 hp).1 kv.1 h1.1, by omega⟩

theorem pairwise_two_mem {m : List (Nat × Nat)}
    (h : m.Pairwise (fun x y => x.1 < y.1 ∧ x.2 < y.2)) :
    ∀ x ∈ m, ∀ y ∈ m, x.1 < y.1 → x.2 < y.2 := by
  induction m with
  | nil => simp
  | cons a t ih =>
    intro x hx y hy hlt
    obtain ⟨ha, ht⟩ := List.pairwise_cons.1 h
    rcases List.mem_cons.1 hx with rfl | hx' <;> rcases List.mem_cons.1 hy with rfl | hy'
    · omega
    · exact (ha y hy').2
    · have := (ha x hx').1; omega
    · exact ih ht x hx' y hy' hlt

/-! ### Characterisation of a successful `relabel_pixels` call -/

theorem relabel_pixels_some {data values : List Nat} {nv tv : Nat} {rn : Bool}
    {s : Nat} {out : List Nat} {m : List (Nat × Nat)}
    (h : relabel_pixels data values nv tv rn s = some (out, m)) :
    tv ∈ newValuesOf data values nv rn s ∧
      m = dictZip (collapsedCodes data values nv rn) (newValuesOf data values nv rn s) ∧
      out = applyRelabel (nullReplaced data nv tv rn) m := by
  by_cases hmem : tv ∈ newValuesOf data values nv rn s
  · simp only [relabel_pixels, if_pos hmem, Option.some.injEq, Prod.mk.injEq] at h
    exact ⟨hmem, h.2.symm, by rw [← h.1, h.2]⟩
  · simp [relabel_pixels, hmem] at h

theorem collapsedCodes_supplied (data values : List Nat) (nv : Nat) (rn : Bool)
    (hne : values ≠ []) (hlt : ∀ v ∈ values, v < 256) :
    collapsedCodes data values nv rn =
      (if rn then (List.insertionSort (fun a b => a ≤ b) values).filter
          (fun v => v ≠ nv)
        else List.insertionSort (fun a b => a ≤ b) values) := by
  have hmap : values.map (fun v => v % 256) = values := by
    have h1 := List.map_congr_left
      (fun v hv => Nat.mod_eq_of_lt (hlt v hv) : ∀ v ∈ values, v % 256 = id v)
    simpa using h1
  simp [collapsedCodes, hne, hmap]

theorem codes_sorted_lt (data values : List Nat) (nv : Nat) (rn : Bool)
    (hne : values ≠ []) (hlt : ∀ v ∈ values, v < 256) (hnd : values.Nodup) :
    (collapsedCodes data values nv rn).Pairwise (· < ·) := by
  rw [collapsedCodes_supplied data values nv rn hne hlt]
  have hsort : (List.insertionSort (fun a b => a ≤ b) values).Pairwise (· ≤ ·) :=
    List.sorted_insertionSort _ values
  have hnd2 : (List.insertionSort (fun a b => a ≤ b) values).Nodup :=
    (List.perm_insertionSort _ values).nodup_iff.2 hnd
  have hlt2 := pairwise_lt_of_sorted_nodup hsort hnd2
  cases rn with
  | false => simpa using hlt2
  | true => simpa using hlt2.filter _

theorem codes_nodup (data values : List Nat) (nv : Nat) (rn : Bool)
    (hne : values ≠ []) (hlt : ∀ v ∈ values, v < 256) (hnd : values.Nodup) :
    (collapsedCodes data values nv rn).Nodup := by
  rw [collapsedCodes_supplied data values nv rn hne hlt]
  have hnd2 : (List.insertionSort (fun a b => a ≤ b) values).Nodup :=
    (List.perm_insertionSort _ values).nodup_iff.2 hnd
  cases rn with
  | false => simpa using hnd2
  | true => simpa using hnd2.filter _

theorem mem_codes_iff (data values : List Nat) (nv : Nat) (rn : Bool)
    (hne : values ≠ []) (hlt : ∀ v ∈ values, v < 256) (x : Nat) :
    x ∈ collapsedCodes data values nv rn ↔
      (x ∈ values ∧ (rn = true → x ≠ nv)) := by
  rw [collapsedCodes_supplied data values nv rn hne hlt]
  have hperm := (List.perm_insertionSort (fun a b => a ≤ b) values).mem_iff (a := x)
  cases rn with
  | false => simpa using hperm
  | true => simp [List.mem_filter, hperm]

theorem codes_length_le (data values : List Nat) (nv : Nat) (rn : Bool)
    (hne : values ≠ []) (hlt : ∀ v ∈ values, v < 256) :
    (collapsedCodes data values nv rn).length ≤ values.length := by
  rw [collapsedCodes_supplied data values nv rn hne hlt]
  have hlen := (List.perm_insertionSort (fun a b => a ≤ b) values).length_eq
  cases rn with
  | false => simpa using hlen.le
  | true =>
    simp only [if_pos]
    exact le_trans (List.length_filter_le _ _) hlen.le

theorem newValues_no_wrap_of_start_le (data values : List Nat) (nv : Nat) (rn : Bool)
    (s : Nat) (hne : values ≠ []) (hlt : ∀ v ∈ values, v < 256)
    (hnd : values.Nodup) (hstart : ∀ v ∈ values, s ≤ v) :
    newValuesOf data values nv rn s =
      (List.range (collapsedCodes data values nv rn).length).map (fun i => s + i) := by
  apply List.map_congr_left
  intro i hi
  have hi2 : i < (collapsedCodes data values nv rn).length := List.mem_range.1 hi
  have hget : (collapsedCodes data values nv rn).get? i =
      some ((collapsedCodes data values nv rn).get ⟨i, hi2⟩) := List.get?_eq_get hi2
  have hmem : (collapsedCodes data values nv rn).get ⟨i, hi2⟩ ∈
      collapsedCodes data values nv rn := List.get_mem _ _ _
  have hsle : ∀ v ∈ collapsedCodes data values nv rn, s ≤ v := fun v hv =>
    hstart v ((mem_codes_iff data values nv rn hne hlt v).1 hv).1
  have h1 := ge_add_idx_of_pairwise (codes_sorted_lt data values nv rn hne hlt hnd)
    hsle i _ hget
  have h2 : (collapsedCodes data values nv rn).get ⟨i, hi2⟩ < 256 :=
    hlt _ ((mem_codes_iff data values nv rn hne hlt _).1 hmem).1
  exact Nat.mod_eq_of_lt (by omega)

theorem newValues_no_wrap_of_bound (data values : List Nat) (nv : Nat) (rn : Bool)
    (s : Nat) (hne : values ≠ []) (hlt : ∀ v ∈ values, v < 256)
    (hnw : s + values.length ≤ 256) :
    newValuesOf data values nv rn s =
      (List.range (collapsedCodes data values nv rn).length).map (fun i => s + i) := by
  apply List.map_congr_left
  intro i hi
  have hi2 : i < (collapsedCodes data values nv rn).length := List.mem_range.1 hi
  have h1 := codes_length_le data values nv rn hne hlt
  exact Nat.mod_eq_of_lt (by omega)

theorem relabelMap_eq_zipConsec (data values : List Nat) (nv tv : Nat) (rn : Bool)
    (s : Nat) (out : List Nat) (m : List (Nat × Nat))
    (hne : values ≠ []) (hlt : ∀ v ∈ values, v < 256) (hnd : values.Nodup)
    (hnw : newValuesOf data values nv rn s =
      (List.range (collapsedCodes data values nv rn).length).map (fun i => s + i))
    (hsucc : relabel_pixels data values nv tv rn s = some (out, m)) :
    m = zipConsec s (collapsedCodes data values nv rn) := by
  obtain ⟨_, hm, _⟩ := relabel_pixels_some hsucc
  rw [hm, hnw, dictZip_eq_zip _ _ (codes_nodup data values nv rn hne hlt hnd),
    zip_range_eq_zipConsec]

/-! ### Claim C2 — relabel round-trip -/

/-- Claim C2 counterexample: with category codes `{0, 1}`, a data array `[0]`
drawn entirely from them, no missing-collapse, and `range_start = 1`, the
sequential rewrite loop first sends `0` to `1` and then re-sends that `1` to
`2`, so applying the inverse of the returned map `{0 ↦ 1, 1 ↦ 2}` to the
output `[2]` yields `[1]`, not the original `[0]` — the claimed round-trip
fails for this choice of `range_start`. -/
theorem C2_roundtrip_cex :
    relabel_pixels [0] [0, 1] 255 1 false 1 = some ([2], [(0, 1), (1, 2)]) ∧
      applyMapSim (invMap [(0, 1), (1, 2)]) [2] = [1] ∧
      ([1] : List Nat) ≠ [0] ∧ (0 : Nat) ∈ ([0] : List Nat) ∧
      (0 : Nat) ∈ ([0, 1] : List Nat) := by decide

/-- Claim C2 (amended): for a non-empty duplicate-free set of category codes
below 256, with `range_start` no larger than any code (as in every call in the
repository, which all use `range_start = 0`), a successful `relabel_pixels`
call followed by the inverse of the returned map reconstructs every pixel of
an array drawn from the codes, except pixels equal to the missing code when
missing-collapse is enabled. -/
theorem C2_relabel_roundtrip (data values : List Nat) (nv tv : Nat) (rn : Bool)
    (s : Nat) (out : List Nat) (m : List (Nat × Nat))
    (hne : values ≠ []) (hlt : ∀ v ∈ values, v < 256) (hnd : values.Nodup)
    (hstart : ∀ v ∈ values, s ≤ v) (hdata : ∀ p ∈ data, p ∈ values)
    (hsucc : relabel_pixels data values nv tv rn s = some (out, m)) :
    ∀ i p, data.get? i = some p → (rn = true → p ≠ nv) →
      (applyMapSim (invMap m) out).get? i = some p := by
  obtain ⟨_, _, hout⟩ := relabel_pixels_some hsucc
  have hmz := relabelMap_eq_zipConsec data values nv tv rn s out m hne hlt hnd
    (newValues_no_wrap_of_start_le data values nv rn s hne hlt hnd hstart) hsucc
  intro i p hget hrn
  have hp : p ∈ values := hdata p (List.get?_mem hget)
  have hpvs : p ∈ collapsedCodes data values nv rn :=
    (mem_codes_iff data values nv rn hne hlt p).2 ⟨hp, hrn⟩
  have hstep : (nullReplaced data nv tv rn).get? i = some p := by
    cases rn with
    | false => simpa [nullReplaced] using hget
    | true =>
      simp only [nullReplaced, if_pos, List.get?_map, hget, Option.map_some']
      simp [hrn rfl]
  have houti : out.get? i = some (seqApply m p) := by
    rw [hout, applyRelabel_eq_map, List.get?_map, hstep]
    rfl
  rw [applyMapSim, List.get?_map, houti, Option.map_some']
  have hsle : ∀ v ∈ collapsedCodes data values nv rn, s ≤ v := fun v hv =>
    hstart v ((mem_codes_iff data values nv rn hne hlt v).1 hv).1
  have := (seq_mem_roundtrip (collapsedCodes data values nv rn) s p
    (codes_sorted_lt data values nv rn hne hlt hnd) hsle hpvs).2
  rw [hmz]
  rw [this]

/-- Claim C2 witness: a concrete successful call with the default parameters
of the notebooks, round-tripping pixel `1`. -/
theorem C2_relabel_roundtrip_witness :
    relabel_pixels [1] [0, 1] 255 0 true 0 = some ([1], [(0, 0), (1, 1)]) ∧
      (applyMapSim (invMap [(0, 0), (1, 1)]) [1]).get? 0 = some 1 :=
  ⟨by decide,
    C2_relabel_roundtrip [1] [0, 1] 255 0 true 0 [1] [(0, 0), (1, 1)]
      (by decide) (by decide) (by decide) (by decide) (by decide) (by decide)
      0 1 (by decide) (by decide)⟩

/-! ### Claim C3 — transparent-value membership -/

/-- Claim C3 counterexample: the transparent code `0` is not a member of the
supplied category codes `{5, 6, 7}`, yet `relabel_pixels` succeeds — the
`assert` checks membership in the NEW value range `np.arange(0, 3)`, not in
the original codes, so the claimed failure does not occur. -/
theorem C3_transparent_cex :
    relabel_pixels [] [5, 6, 7] 255 0 true 0 =
        some ([], [(5, 0), (6, 1), (7, 2)]) ∧
      (0 : Nat) ∉ ([5, 6, 7] : List Nat) := by decide

/-- Claim C3 (amended): `relabel_pixels` fails exactly when the transparent
code is missing from the computed new-value range (not from the category
codes); for a duplicate-free set of supplied codes below 256, every
successful call returns a map whose image contains the transparent code
itself. -/
theorem C3_transparent_in_image (data values : List Nat) (nv tv : Nat)
    (rn : Bool) (s : Nat) (out : List Nat) (m : List (Nat × Nat))
    (hne : values ≠ []) (hlt : ∀ v ∈ values, v < 256) (hnd : values.Nodup)
    (hsucc : relabel_pixels data values nv tv rn s = some (out, m)) :
    tv ∈ m.map Prod.snd := by
  obtain ⟨hmem, hm, _⟩ := relabel_pixels_some hsucc
  rw [hm, dictZip_eq_zip _ _ (codes_nodup data values nv rn hne hlt hnd),
    List.map_snd_zip]
  · exact hmem
  · simp [newValuesOf]

/-- Claim C3 witness: a successful call whose transparent code `0` is not
among the codes `{5, 6, 7}` but does appear in the image of the map. -/
theorem C3_transparent_in_image_witness :
    relabel_pixels [] [5, 6, 7] 255 0 true 0 =
        some ([], [(5, 0), (6, 1), (7, 2)]) ∧
      (0 : Nat) ∈ ([(5, 0), (6, 1), (7, 2)] : List (Nat × Nat)).map Prod.snd :=
  ⟨by decide,
    C3_transparent_in_image [] [5, 6, 7] 255 0 true 0 [] [(5, 0), (6, 1), (7, 2)]
      (by decide) (by decide) (by decide) (by decide)⟩

/-! ### Claim C4 — relabel range density -/

/-- Claim C4 counterexample: with codes `{0, 250, 251}`, `range_start = 254`
and transparent code `254`, the call succeeds but the `uint8` arange wraps:
the image is `{254, 255, 0}`, not the claimed dense interval `[254, 257)` —
`0` is in the image but not the interval, `256` is in the interval but not
the image. -/
theorem C4_density_cex :
    relabel_pixels [] [0, 250, 251] 255 254 true 254 =
        some ([], [(0, 254), (250, 255), (251, 0)]) ∧
      (0 : Nat) ∈ ([(0, 254), (250, 255), (251, 0)] : List (Nat × Nat)).map Prod.snd ∧
      (0 : Nat) ∉ (List.range 3).map (fun i => 254 + i) ∧
      (256 : Nat) ∈ (List.range 3).map (fun i => 254 + i) ∧
      (256 : Nat) ∉
        ([(0, 254), (250, 255), (251, 0)] : List (Nat × Nat)).map Prod.snd := by
  decide

/-- Claim C4 (amended): provided `range_start + len(category_codes) ≤ 256`
(no `uint8` wraparound; true of every call in the repository), for a
non-empty duplicate-free set of codes below 256 every successful call
returns a map whose image is exactly the consecutive interval
`[range_start, range_start + n)` where `n` is the number of codes remaining
after missing-collapse. -/
theorem C4_relabel_range_density (data values : List Nat) (nv tv : Nat)
    (rn : Bool) (s : Nat) (out : List Nat) (m : List (Nat × Nat))
    (hne : values ≠ []) (hlt : ∀ v ∈ values, v < 256) (hnd : values.Nodup)
    (hnw : s + values.length ≤ 256)
    (hsucc : relabel_pixels data values nv tv rn s = some (out, m)) :
    m.map Prod.snd = (List.range m.length).map (fun i => s + i) ∧
      m.length =
        (if rn = true then values.filter (fun v => v ≠ nv) else values).length := by
  have hmz := relabelMap_eq_zipConsec data values nv tv rn s out m hne hlt hnd
    (newValues_no_wrap_of_bound data values nv rn s hne hlt hnw) hsucc
  have hlen : m.length = (collapsedCodes data values nv rn).length := by
    rw [hmz, zipConsec_length]
  constructor
  · rw [hmz, zipConsec_map_snd, zipConsec_length]
  · rw [hlen, collapsedCodes_supplied data values nv rn hne hlt]
    have hperm := List.perm_insertionSort (fun a b => a ≤ b) values
    cases rn with
    | false => simpa using hperm.length_eq
    | true =>
      simp only [if_pos]
      exact (hperm.filter _).length_eq

/-- Claim C4 witness: the notebook's own parameters, whose image is the dense
interval `[0, 6)`. -/
theorem C4_relabel_range_density_witness :
    relabel_pixels [] [0, 1, 2, 252, 253, 254, 255] 255 0 true 0 =
        some ([], [(0, 0), (1, 1), (2, 2), (252, 3), (253, 4), (254, 5)]) ∧
      ([(0, 0), (1, 1), (2, 2), (252, 3), (253, 4), (254, 5)] :
          List (Nat × Nat)).map Prod.snd =
        (List.range 6).map (fun i => 0 + i) :=
  ⟨by decide, by
    have h := C4_relabel_range_density [] [0, 1, 2, 252, 253, 254, 255] 255 0
      true 0 [] [(0, 0), (1, 1), (2, 2), (252, 3), (253, 4), (254, 5)]
      (by decide) (by decide) (by decide) (by decide) (by decide)
    exact h.1⟩

/-! ### Claim C5 — relabel monotonicity -/

/-- Claim C5 counterexample: with codes `{0, 250, 251}` and
`range_start = 254` (transparent `254`), the returned map contains
`250 ↦ 255` and `251 ↦ 0`: the original codes satisfy `250 < 251` but the
new values do not satisfy `255 < 0`, so the map is not strictly monotone. -/
theorem C5_monotone_cex :
    relabel_pixels [] [0, 250, 251] 255 254 true 254 =
        some ([], [(0, 254), (250, 255), (251, 0)]) ∧
      ((250, 255) : Nat × Nat) ∈
        ([(0, 254), (250, 255), (251, 0)] : List (Nat × Nat)) ∧
      ((251, 0) : Nat × Nat) ∈
        ([(0, 254), (250, 255), (251, 0)] : List (Nat × Nat)) ∧
      (250 : Nat) < 251 ∧ ¬((255 : Nat) < 0) := by decide

/-- Claim C5 (amended): provided `range_start + len(category_codes) ≤ 256`
(no `uint8` wraparound; true of every call in the repository), for a
non-empty duplicate-free set of codes below 256 the returned map is strictly
monotone: smaller original codes receive strictly smaller new values. -/
theorem C5_relabel_monotone (data values : List Nat) (nv tv : Nat) (rn : Bool)
    (s : Nat) (out : List Nat) (m : List (Nat × Nat))
    (hne : values ≠ []) (hlt : ∀ v ∈ values, v < 256) (hnd : values.Nodup)
    (hnw : s + values.length ≤ 256)
    (hsucc : relabel_pixels data values nv tv rn s = some (out, m)) :
    ∀ kv ∈ m, ∀ kv2 ∈ m, kv.1 < kv2.1 → kv.2 < kv2.2 := by
  have hmz := relabelMap_eq_zipConsec data values nv tv rn s out m hne hlt hnd
    (newValues_no_wrap_of_bound data values nv rn s hne hlt hnw) hsucc
  rw [hmz]
  exact pairwise_two_mem (zipConsec_pairwise _ s
    (codes_sorted_lt data values nv rn hne hlt hnd))

/-- Claim C5 witness: in the notebook's own call, code `2 < 252` maps to
`2 < 3`. -/
theorem C5_relabel_monotone_witness :
    relabel_pixels [] [0, 1, 2, 252, 253, 254, 255] 255 0 true 0 =
        some ([], [(0, 0), (1, 1), (2, 2), (252, 3), (253, 4), (254, 5)]) ∧
      (2 : Nat) < 3 :=
  ⟨by decide,
    C5_relabel_monotone [] [0, 1, 2, 252, 253, 254, 255] 255 0 true 0 []
      [(0, 0), (1, 1), (2, 2), (252, 3), (253, 4), (254, 5)]
      (by decide) (by decide) (by decide) (by decide) (by decide)
      (2, 2) (by decide) (252, 3) (by decide) (by decide)⟩

/-! ### Claim C6 — missing-value collapse -/

/-- Claim C6: with codes `{0, 1, 2, 252, 253, 254, 255}`, missing code `255`,
transparent code `0`, `range_start = 0` and missing-collapse enabled, the
returned map is exactly `{0↦0, 1↦1, 2↦2, 252↦3, 253↦4, 254↦5}` (the missing
code contributes no entry), and every pixel that was `255` is first rewritten
to the transparent code `0` and ends as `0` in the output, whatever the data. -/
theorem C6_missing_collapse (data : List Nat) :
    ∃ out, relabel_pixels data [0, 1, 2, 252, 253, 254, 255] 255 0 true 0 =
        some (out, [(0, 0), (1, 1), (2, 2), (252, 3), (253, 4), (254, 5)]) ∧
      out.length = data.length ∧
      (∀ i, data.get? i = some 255 → out.get? i = some 0) ∧
      (255 : Nat) ∉ ([(0, 0), (1, 1), (2, 2), (252, 3), (253, 4), (254, 5)] :
        List (Nat × Nat)).map Prod.fst := by
  refine ⟨applyRelabel (nullReplaced data 255 0 true)
    [(0, 0), (1, 1), (2, 2), (252, 3), (253, 4), (254, 5)], ?_, ?_, ?_, by decide⟩
  · rfl
  · simp [applyRelabel_eq_map, nullReplaced]
  · intro i hi
    rw [applyRelabel_eq_map, List.get?_map]
    have h1 : (nullReplaced data 255 0 true).get? i = some 0 := by
      simp only [nullReplaced, if_pos, List.get?_map, hi, Option.map_some']
    rw [h1, Option.map_some']
    decide

/-- Claim C6 witness: a concrete data array holding a missing pixel. -/
theorem C6_missing_collapse_witness :
    ∃ out, relabel_pixels [255, 3] [0, 1, 2, 252, 253, 254, 255] 255 0 true 0 =
        some (out, [(0, 0), (1, 1), (2, 2), (252, 3), (253, 4), (254, 5)]) ∧
      out.get? 0 = some 0 := by
  obtain ⟨out, h1, _, h3, _⟩ := C6_missing_collapse [255, 3]
  exact ⟨out, h1, h3 0 (by decide)⟩

/-! ### Claim C9 — permissive pass-through -/

/-- Claim C9 counterexample: with missing-collapse enabled, a pixel equal to
the missing code `255` — which is not among the collapsed category codes
`[0, 1]` and is not a key of the returned map — is nevertheless rewritten to
the transparent code `0`, so it is not passed through unchanged. -/
theorem C9_passthrough_cex :
    relabel_pixels [255] [0, 1] 255 0 true 0 = some ([0], [(0, 0), (1, 1)]) ∧
      (255 : Nat) ∉ collapsedCodes [255] [0, 1] 255 true ∧
      ([0] : List Nat) ≠ [255] := by decide

/-- Claim C9 (amended): the rewrite loop is permissive — on a successful call,
a pixel whose value is not a key of the returned map is passed through to the
output unchanged, except that a pixel equal to the missing code is first
rewritten to the transparent code when missing-collapse is enabled; and with
explicitly supplied codes, success never depends on the data, so an unlisted
pixel value cannot cause a failure. -/
theorem C9_relabel_permissive (data values : List Nat) (nv tv : Nat) (rn : Bool)
    (s : Nat) (out : List Nat) (m : List (Nat × Nat))
    (hsucc : relabel_pixels data values nv tv rn s = some (out, m)) :
    (∀ i p, data.get? i = some p → (∀ kv ∈ m, p ≠ kv.1) → (rn = true → p ≠ nv) →
      out.get? i = some p) ∧
    (∀ data2, values ≠ [] →
      (relabel_pixels data2 values nv tv rn s).isSome = true) := by
  obtain ⟨hmem, _, hout⟩ := relabel_pixels_some hsucc
  constructor
  · intro i p hget hkeys hrn
    have hstep : (nullReplaced data nv tv rn).get? i = some p := by
      cases rn with
      | false => simpa [nullReplaced] using hget
      | true =>
        simp only [nullReplaced, if_pos, List.get?_map, hget, Option.map_some']
        simp [hrn rfl]
    rw [hout, applyRelabel_eq_map, List.get?_map, hstep, Option.map_some',
      seqApply_of_not_key m p hkeys]
  · intro data2 hne
    have heq : newValuesOf data2 values nv rn s = newValuesOf data values nv rn s := by
      simp [newValuesOf, collapsedCodes, hne]
    simp [relabel_pixels, heq, hmem]

/-- Claim C9 witness: pixel `3` is not a key of the map `{0↦0, 1↦1}` and
passes through unchanged; success is independent of the data. -/
theorem C9_relabel_permissive_witness :
    relabel_pixels [3] [0, 1] 255 0 true 0 = some ([3], [(0, 0), (1, 1)]) ∧
      ([3] : List Nat).get? 0 = some 3 ∧
      (relabel_pixels [9, 77] [0, 1] 255 0 true 0).isSome = true := by
  have h := C9_relabel_permissive [3] [0, 1] 255 0 true 0 [3] [(0, 0), (1, 1)]
    (by decide)
  exact ⟨by decide, h.1 0 3 (by decide) (by decide) (by decide),
    h.2 [9, 77] (by decide)⟩

/-! ### Claim C1 — merge determinism and last-write-wins -/

theorem mergePix_pair (f g : RasterFrame) (x y : Int) :
    mergePix [f, g] x y =
      if containsB g x y then some (g.pix x y)
      else if containsB f x y then some (f.pix x y) else none := rfl

/-- Claim C1: merging two overlapping frames with equal CRS and resolution is
deterministic (the same call yields bit-identical output), the two supply
orders produce mosaics with the same bounds, every overlapped cell takes the
value of the second-supplied frame, and the two orders differ at a cell
exactly when the cell lies in the overlap and the two frames disagree there. -/
theorem C1_merge_last_write_wins (f1 f2 : RasterFrame)
    (hcrs : f2.crs = f1.crs) (hrx : f2.rx = f1.rx) (hry : f2.ry = f1.ry) :
    merge [f1, f2] = merge [f1, f2] ∧
      ∃ m12 m21, merge [f1, f2] = some m12 ∧ merge [f2, f1] = some m21 ∧
        m12.ox = m21.ox ∧ m12.oy = m21.oy ∧
        m12.width = m21.width ∧ m12.height = m21.height ∧
        (∀ x y, containsB f1 x y = true → containsB f2 x y = true →
          m12.pix x y = some (f2.pix x y) ∧ m21.pix x y = some (f1.pix x y)) ∧
        (∀ x y, m12.pix x y ≠ m21.pix x y ↔
          (containsB f1 x y = true ∧ containsB f2 x y = true ∧
            f1.pix x y ≠ f2.pix x y)) := by
  refine ⟨rfl, ?_⟩
  have h12 : merge [f1, f2] = some
      { crs := f1.crs, rx := f1.rx, ry := f1.ry
        ox := unionOx f1 [f2], oy := unionOy f1 [f2]
        width := (unionEx f1 [f2] - unionOx f1 [f2]).toNat
        height := (unionEy f1 [f2] - unionOy f1 [f2]).toNat
        pix := fun x y => mergePix [f1, f2] x y } := by
    simp [merge, hcrs, hrx, hry]
  have h21 : merge [f2, f1] = some
      { crs := f2.crs, rx := f2.rx, ry := f2.ry
        ox := unionOx f2 [f1], oy := unionOy f2 [f1]
        width := (unionEx f2 [f1] - unionOx f2 [f1]).toNat
        height := (unionEy f2 [f1] - unionOy f2 [f1]).toNat
        pix := fun x y => mergePix [f2, f1] x y } := by
    simp [merge, hcrs, hrx, hry]
  refine ⟨_, _, h12, h21, ?_, ?_, ?_, ?_, ?_, ?_⟩
  · show unionOx f1 [f2] = unionOx f2 [f1]
    simp [unionOx, min_comm]
  · show unionOy f1 [f2] = unionOy f2 [f1]
    simp [unionOy, min_comm]
  · show (unionEx f1 [f2] - unionOx f1 [f2]).toNat =
      (unionEx f2 [f1] - unionOx f2 [f1]).toNat
    simp [unionEx, unionOx, min_comm, max_comm]
  · show (unionEy f1 [f2] - unionOy f1 [f2]).toNat =
      (unionEy f2 [f1] - unionOy f2 [f1]).toNat
    simp [unionEy, unionOy, min_comm, max_comm]
  · intro x y h1 h2
    constructor
    · show mergePix [f1, f2] x y = some (f2.pix x y)
      rw [mergePix_pair]
      simp [h2]
    · show mergePix [f2, f1] x y = some (f1.pix x y)
      rw [mergePix_pair]
      simp [h1]
  · intro x y
    show mergePix [f1, f2] x y ≠ mergePix [f2, f1] x y ↔ _
    rw [mergePix_pair, mergePix_pair]
    by_cases h1 : containsB f1 x y <;> by_cases h2 : containsB f2 x y <;>
      simp [h1, h2, ne_comm]

/-- A concrete 2×1 frame at the grid origin with constant value 5. -/
def frameW1 : RasterFrame := ⟨0, 1, 1, 0, 0, 2, 1, fun _ _ => 5⟩

/-- A concrete 2×1 frame shifted one column right, constant value 7; it
overlaps `frameW1` in the cell `(1, 0)`. -/
def frameW2 : RasterFrame := ⟨0, 1, 1, 1, 0, 2, 1, fun _ _ => 7⟩

/-- Claim C1 witness: merging the two overlapping concrete frames in both
orders, the overlapped cell `(1, 0)` takes the second-supplied frame's
value. -/
theorem C1_merge_last_write_wins_witness :
    frameW2.crs = frameW1.crs ∧ frameW2.rx = frameW1.rx ∧ frameW2.ry = frameW1.ry ∧
      ∃ m12 m21, merge [frameW1, frameW2] = some m12 ∧
        merge [frameW2, frameW1] = some m21 ∧
        m12.pix 1 0 = some (frameW2.pix 1 0) ∧
        m21.pix 1 0 = some (frameW1.pix 1 0) := by
  refine ⟨rfl, rfl, rfl, ?_⟩
  obtain ⟨-, m12, m21, h12, h21, -, -, -, -, hwin, -⟩ :=
    C1_merge_last_write_wins frameW1 frameW2 rfl rfl rfl
  obtain ⟨ha, hb⟩ := hwin 1 0 (by decide) (by decide)
  exact ⟨m12, m21, h12, h21, ha, hb⟩

/-! ### Claim C7 — stacking preserves tags and shapes -/

theorem buildStack_eq_map (rows : List (Nat × List (List Nat))) :
    buildStack rows = rows.map (fun tr => ⟨tr.1, tr.2⟩) := by
  have h : ∀ (l : List (Nat × List (List Nat))) (acc : List TaggedSlice),
      l.foldl (fun a tr => a ++ [⟨tr.1, tr.2⟩]) acc =
        acc ++ l.map (fun tr => ⟨tr.1, tr.2⟩) := by
    intro l
    induction l with
    | nil => intro acc; simp
    | cons x t ih => intro acc; simp [ih]
  simpa [buildStack] using h rows []

/-- Claim C7: stacking same-shape tagged frames yields a stack whose `time`
coordinate lists exactly the caller-supplied tags in the caller-supplied
order — one entry per input frame, no reordering, deduplication, or dropping
— and whose slices are the input grids unchanged (in particular their shapes
are unchanged). -/
theorem C7_stack_preserves_tags (rows : List (Nat × List (List Nat)))
    (sh : Nat × List Nat) (hsh : ∀ r ∈ rows, matShape r.2 = sh) :
    (xr_concat (buildStack rows)).times = rows.map Prod.fst ∧
      (xr_concat (buildStack rows)).times.length = rows.length ∧
      (xr_concat (buildStack rows)).slices.length = rows.length ∧
      (∀ i, (xr_concat (buildStack rows)).slices.get? i =
        (rows.get? i).map Prod.snd) ∧
      (∀ i, ((xr_concat (buildStack rows)).slices.get? i).map matShape =
        (rows.get? i).map (fun r => matShape r.2)) := by
  refine ⟨?_, ?_, ?_, ?_, ?_⟩
  · show (buildStack rows).map TaggedSlice.time = _
    rw [buildStack_eq_map, List.map_map]
    rfl
  · show ((buildStack rows).map TaggedSlice.time).length = _
    rw [buildStack_eq_map]
    simp
  · show ((buildStack rows).map TaggedSlice.data).length = _
    rw [buildStack_eq_map]
    simp
  · intro i
    show ((buildStack rows).map TaggedSlice.data).get? i = _
    rw [buildStack_eq_map, List.map_map, List.get?_map]
    rfl
  · intro i
    show (((buildStack rows).map TaggedSlice.data).get? i).map matShape = _
    rw [buildStack_eq_map, List.map_map, List.get?_map]
    cases rows.get? i <;> rfl

/-- Claim C7 witness: two same-shape tagged slices stack to the tag list
`[10, 20]` in input order. -/
theorem C7_stack_preserves_tags_witness :
    (∀ r ∈ ([(10, [[1, 2]]), (20, [[3, 4]])] : List (Nat × List (List Nat))),
      matShape r.2 = (1, [2])) ∧
      (xr_concat (buildStack [(10, [[1, 2]]), (20, [[3, 4]])])).times = [10, 20] := by
  have h := C7_stack_preserves_tags [(10, [[1, 2]]), (20, [[3, 4]])] (1, [2])
    (by decide)
  exact ⟨by decide, h.1⟩

/-! ### Claim C8 — pixel grid consistent with bounds and resolution -/

theorem arangeLen_exact (c step : ℚ) (w : Nat) (hstep : step ≠ 0) :
    arangeLen c (c + w * step) step = w := by
  have h1 : (c + w * step - c) / step = (w : ℚ) := by field_simp
  rw [arangeLen, h1]
  by_cases hw : 0 < (w : ℚ)
  · rw [if_pos hw, Int.ceil_natCast]
    simp
  · rw [if_neg hw]
    have h2 : (w : ℚ) = 0 := le_antisymm (not_lt.1 hw) (by positivity)
    have h3 : w = 0 := by exact_mod_cast h2
    omega

/-- Claim C8: for every merge result with positive resolutions, the bounds
reconstructed from the mosaic's shape and affine transform give coordinate
arrays (arithmetic progressions at the per-axis resolution) with exactly
`width` entries horizontally and `height` entries vertically, and
`round((x_max - x_min) / x_res)` equals the pixel width, similarly for the
height. -/
theorem C8_bounds_grid_consistency (frames : List RasterFrame) (m : Mosaic)
    (hm : merge frames = some m) (hrx : 0 < m.rx) (hry : 0 < m.ry) :
    arangeLen (array_bounds m.height m.width (mosaicTransform m)).1
        (array_bounds m.height m.width (mosaicTransform m)).2.2.1
        (mosaicTransform m).a = m.width ∧
      arangeLen (array_bounds m.height m.width (mosaicTransform m)).2.2.2
        (array_bounds m.height m.width (mosaicTransform m)).2.1
        (mosaicTransform m).e = m.height ∧
      round (((array_bounds m.height m.width (mosaicTransform m)).2.2.1 -
        (array_bounds m.height m.width (mosaicTransform m)).1) / m.rx) =
        (m.width : ℤ) ∧
      round (((array_bounds m.height m.width (mosaicTransform m)).2.2.2 -
        (array_bounds m.height m.width (mosaicTransform m)).2.1) / m.ry) =
        (m.height : ℤ) := by
  have hrx0 : m.rx ≠ 0 := ne_of_gt hrx
  have hry0 : m.ry ≠ 0 := ne_of_gt hry
  simp only [array_bounds, mosaicTransform]
  refine ⟨arangeLen_exact _ _ _ hrx0, arangeLen_exact _ _ _ (by simpa using hry0),
    ?_, ?_⟩
  · have h1 : (m.rx * m.ox + m.width * m.rx - m.rx * m.ox) / m.rx = (m.width : ℚ) :=
      by field_simp
    rw [h1, round_natCast]
  · have h2 : (-m.ry * m.oy - (-m.ry * m.oy + m.height * -m.ry)) / m.ry =
      (m.height : ℚ) := by field_simp
    rw [h2, round_natCast]

/-- The mosaic obtained by merging the single concrete frame `frameW1`. -/
def mosaicW : Mosaic :=
  { crs := 0, rx := 1, ry := 1, ox := 0, oy := 0, width := 2, height := 1
    pix := fun x y => mergePix [frameW1] x y }

/-- Claim C8 witness: the single-frame merge of `frameW1` has a 2-entry
horizontal coordinate array. -/
theorem C8_bounds_grid_consistency_witness :
    merge [frameW1] = some mosaicW ∧ 0 < mosaicW.rx ∧ 0 < mosaicW.ry ∧
      arangeLen (array_bounds mosaicW.height mosaicW.width
          (mosaicTransform mosaicW)).1
        (array_bounds mosaicW.height mosaicW.width
          (mosaicTransform mosaicW)).2.2.1
        (mosaicTransform mosaicW).a = mosaicW.width := by
  have hx : (0 : ℚ) < mosaicW.rx := by norm_num [mosaicW]
  have hy : (0 : ℚ) < mosaicW.ry := by norm_num [mosaicW]
  have hm : merge [frameW1] = some mosaicW := rfl
  exact ⟨hm, hx, hy, (C8_bounds_grid_consistency [frameW1] mosaicW hm hx hy).1⟩

/-! ### Claim C10 — search_to_dataframe never returns an empty DataFrame -/

theorem rowsOf_length (props : List String) (gs : List Granule) (rows : List DfRow)
    (h : rowsOf props gs = some rows) :
    rows.length = (gs.map (fun g => g.assets.length)).sum := by
  induction gs generalizing rows with
  | nil =>
    simp only [rowsOf, Option.some.injEq] at h
    subst h
    simp
  | cons g t ih =>
    cases htile : tileId g with
    | none => simp [rowsOf, htile] at h
    | some tid =>
      cases hrec : rowsOf props t with
      | none => simp [rowsOf, htile, hrec] at h
      | some rest =>
        simp only [rowsOf, htile, hrec, Option.some.injEq] at h
        subst h
        simp [ih rest hrec]

/-- Claim C10: `search_to_dataframe` fails on an empty granule list, and every
successful call returns a non-empty DataFrame with exactly one row per
granule-asset pair. -/
theorem C10_search_nonempty (granules : List Granule) :
    (granules = [] → search_to_dataframe granules = none) ∧
      ∀ rows, search_to_dataframe granules = some rows →
        0 < rows.length ∧
          rows.length = (granules.map (fun g => g.assets.length)).sum := by
  constructor
  · intro h
    subst h
    rfl
  · intro rows h
    by_cases hg : granules.isEmpty
    · simp [search_to_dataframe, hg] at h
    · cases hr : rowsOf (propsOf granules) granules with
      | none => simp [search_to_dataframe, hg, hr] at h
      | some rs =>
        by_cases hrs : rs = []
        · simp [search_to_dataframe, hg, hr, hrs] at h
        · have hrw : rows = rs := by
            simp only [search_to_dataframe, hg, if_false, Bool.false_eq_true,
              hr, hrs, if_neg, Option.some.injEq] at h
            exact h.symm
          subst hrw
          refine ⟨?_, rowsOf_length _ _ _ hr⟩
          exact List.length_pos.2 hrs

/-- A concrete search-result granule with one property and one asset. -/
def granW : Granule :=
  ⟨"OPERA_L3_DSWX_T11SQA", [("eo:cloud_cover", "20")], [("0_B01_WTR", "https.tif")]⟩

/-- The single DataFrame row produced from `granW`. -/
def rowW : DfRow := ⟨[some "20"], "0_B01_WTR", "https.tif", "T11SQA"⟩

/-- Claim C10 witness: one granule with one asset yields exactly one row. -/
theorem C10_search_nonempty_witness :
    search_to_dataframe [granW] = some [rowW] ∧ 0 < [rowW].length ∧
      [rowW].length = ([granW].map (fun g => g.assets.length)).sum := by
  have heq : search_to_dataframe [granW] = some [rowW] := by rfl
  have h := (C10_search_nonempty [granW]).2 [rowW] heq
  exact ⟨heq, h.1, h.2⟩

end ClimateRisk
